import Mathlib

set_option maxHeartbeats 1000000

/-!
Verification of the LinkedIn scraper core (`LinkedInScraper` class).

The definitions below are a shallow embedding of the TypeScript source:
the search-query builder (`buildSearchUrl` and the static `LinkedInFilters`
enum-to-code tables), the organization-link canonicalization, the
company-details enrichment queue (pending set, cache, single worker flag)
modelled as a small transition system over interleaved actions, the
enrichment merge step, the pagination loop page bound, and the login /
challenge state machine.
-/

namespace Scraper

/-! ## Search filters data model (src/types/linkedin.ts) -/

/-- The datePosted variants of the SearchFilters interface. -/
inductive DatePosted where
  | anyTime | pastMonth | pastWeek | past24Hours
deriving DecidableEq, Repr

/-- The experienceLevel variants of the SearchFilters interface. -/
inductive ExperienceLevel where
  | internship | entryLevel | associate | midSenior | director | executive
deriving DecidableEq, Repr

/-- The jobType variants of the SearchFilters interface. -/
inductive JobType where
  | fullTime | partTime | contract | temporary | volunteer | internship | other
deriving DecidableEq, Repr

/-- The remote variants of the SearchFilters interface. -/
inductive RemoteOption where
  | onSite | remote | hybrid
deriving DecidableEq, Repr

/-- The SearchFilters TS interface: every field is optional.  An optional
string field is truthy in JS iff it is present and non-empty; an optional
array field passes the `length > 0` check iff it is present and non-empty. -/
structure SearchFilters where
  keywords : Option String := none
  location : Option String := none
  datePosted : Option DatePosted := none
  experienceLevel : Option (List ExperienceLevel) := none
  jobType : Option (List JobType) := none
  remote : Option (List RemoteOption) := none
deriving DecidableEq, Repr

namespace LinkedInFilters

/-- Static table LinkedInFilters.datePosted. -/
def datePosted : DatePosted → String
  | .anyTime => ""
  | .pastMonth => "r2592000"
  | .pastWeek => "r604800"
  | .past24Hours => "r86400"

/-- Static table LinkedInFilters.experienceLevel. -/
def experienceLevel : ExperienceLevel → String
  | .internship => "1"
  | .entryLevel => "2"
  | .associate => "3"
  | .midSenior => "4"
  | .director => "5"
  | .executive => "6"

/-- Static table LinkedInFilters.jobType. -/
def jobType : JobType → String
  | .fullTime => "F"
  | .partTime => "P"
  | .contract => "C"
  | .temporary => "T"
  | .volunteer => "V"
  | .internship => "I"
  | .other => "O"

/-- Static table LinkedInFilters.remote. -/
def remote : RemoteOption → String
  | .onSite => "1"
  | .remote => "2"
  | .hybrid => "3"

end LinkedInFilters

/-! ## buildSearchUrl (LinkedInScraper.buildSearchUrl) -/

/-- Array.prototype.join with a separator, as used by `.join(',')`. -/
def joinSep (sep : String) : List String → String
  | [] => ""
  | [x] => x
  | x :: xs => x ++ sep ++ joinSep sep xs

/-- config.JOBS_SEARCH_URL. -/
def JOBS_SEARCH_URL : String := "https://www.linkedin.com/jobs/search"

/-- The params appended for the keywords field:
if the keywords filter is truthy, append it under the name keywords. -/
def keywordsParams (f : SearchFilters) : List (String × String) :=
  match f.keywords with
  | some k => if k = "" then [] else [("keywords", k)]
  | none => []

/-- The params appended for the location field. -/
def locationParams (f : SearchFilters) : List (String × String) :=
  match f.location with
  | some l => if l = "" then [] else [("location", l)]
  | none => []

/-- The params appended for datePosted: guarded by presence, by
the inequality with any-time, and by truthiness of the mapped code. -/
def datePostedParams (f : SearchFilters) : List (String × String) :=
  match f.datePosted with
  | some dp =>
    if dp = DatePosted.anyTime then []
    else if LinkedInFilters.datePosted dp = "" then []
    else [("f_TPR", LinkedInFilters.datePosted dp)]
  | none => []

/-- The params appended for experienceLevel: map through the static table,
filter(Boolean), join with commas, append only if the result is truthy. -/
def experienceLevelParams (f : SearchFilters) : List (String × String) :=
  match f.experienceLevel with
  | some ls =>
    if ls.length > 0 then
      if joinSep "," ((ls.map LinkedInFilters.experienceLevel).filter (fun s => s != "")) = "" then []
      else [("f_E", joinSep "," ((ls.map LinkedInFilters.experienceLevel).filter (fun s => s != "")))]
    else []
  | none => []

/-- The params appended for jobType. -/
def jobTypeParams (f : SearchFilters) : List (String × String) :=
  match f.jobType with
  | some ls =>
    if ls.length > 0 then
      if joinSep "," ((ls.map LinkedInFilters.jobType).filter (fun s => s != "")) = "" then []
      else [("f_JT", joinSep "," ((ls.map LinkedInFilters.jobType).filter (fun s => s != "")))]
    else []
  | none => []

/-- The params appended for remote. -/
def remoteParams (f : SearchFilters) : List (String × String) :=
  match f.remote with
  | some ls =>
    if ls.length > 0 then
      if joinSep "," ((ls.map LinkedInFilters.remote).filter (fun s => s != "")) = "" then []
      else [("f_WT", joinSep "," ((ls.map LinkedInFilters.remote).filter (fun s => s != "")))]
    else []
  | none => []

/-- The ordered name/value pairs held by the URLSearchParams object after
the sequence of `params.append` calls in buildSearchUrl. -/
def buildParams (f : SearchFilters) : List (String × String) :=
  keywordsParams f ++ locationParams f ++ datePostedParams f ++
    experienceLevelParams f ++ jobTypeParams f ++ remoteParams f

/-- Is a character serialized verbatim by URLSearchParams.toString
(application/x-www-form-urlencoded set: alphanumerics and * - . _)? -/
def isUrlencodedSafe (c : Char) : Bool :=
  (('A' ≤ c && c ≤ 'Z') || ('a' ≤ c && c ≤ 'z') || ('0' ≤ c && c ≤ '9')
    || c == '*' || c == '-' || c == '.' || c == '_')

/-- UTF-8 bytes of a character, for percent-encoding. -/
def utf8Bytes (c : Char) : List Nat :=
  let n := c.toNat
  if n < 128 then [n]
  else if n < 2048 then [192 + n / 64, 128 + n % 64]
  else if n < 65536 then [224 + n / 4096, 128 + (n / 64) % 64, 128 + n % 64]
  else [240 + n / 262144, 128 + (n / 4096) % 64, 128 + (n / 64) % 64, 128 + n % 64]

/-- Uppercase hexadecimal digit. -/
def hexDigit (n : Nat) : Char :=
  if n < 10 then Char.ofNat (48 + n) else Char.ofNat (55 + n)

/-- Percent-encoding of one byte. -/
def percentByte (b : Nat) : List Char :=
  ['%', hexDigit (b / 16), hexDigit (b % 16)]

/-- Urlencoded serialization of one character: safe characters verbatim,
space as plus, anything else percent-encoded bytewise. -/
def encodeChar (c : Char) : List Char :=
  if isUrlencodedSafe c then [c]
  else if c = ' ' then ['+']
  else (utf8Bytes c).flatMap percentByte

/-- Urlencoded serialization of a string. -/
def urlencode (s : String) : String :=
  ⟨s.data.flatMap encodeChar⟩

/-- URLSearchParams.toString: name=value pairs joined with ampersands. -/
def serializeParams (ps : List (String × String)) : String :=
  joinSep "&" (ps.map (fun p => urlencode p.1 ++ "=" ++ urlencode p.2))

/-- LinkedInScraper.buildSearchUrl. -/
def buildSearchUrl (f : SearchFilters) : String :=
  let queryString := serializeParams (buildParams f)
  if queryString = "" then JOBS_SEARCH_URL else JOBS_SEARCH_URL ++ "?" ++ queryString

/-! ## Organization link canonicalization (scrapeJobListings) -/

/-- JS href.split with a question-mark separator, index 0: the prefix of
the characters before the first question mark. -/
def takeBeforeQuery (l : List Char) : List Char := l.takeWhile (fun c => c != '?')

/-- The local cleanUrl of scrapeJobListings: the company href absolutized
against https://www.linkedin.com when relative, query string removed. -/
def cleanCompanyUrl (href : String) : List Char :=
  if "http".data.isPrefixOf href.data then takeBeforeQuery href.data
  else "https://www.linkedin.com".data ++ takeBeforeQuery href.data

/-- Replacement of the anchored pattern slash-life at the end of the string
by the empty string: drops one trailing /life segment if present. -/
def stripLifeSuffix (l : List Char) : List Char :=
  if "/life".data.isSuffixOf l then l.take (l.length - 5) else l

/-- The companyLinkedinUrl value stored on the Job record and enqueued for
enrichment. -/
def canonicalCompanyUrl (href : String) : String :=
  ⟨stripLifeSuffix (cleanCompanyUrl href)⟩

/-! ## Company-details enrichment queue

The scraper holds a pending set (companyQueue, a JS Set iterated in
insertion order, never cleared), a cache (companyDetailsCache, a JS Map),
a single worker flag (isProcessingQueue) and one background worker
(processCompanyQueue).  We model the concurrent execution of the main
pagination flow and the worker as an arbitrary interleaving of atomic
actions: an enqueue (the companyLinkedinUrl block of scrapeJobListings,
whose fire-and-forget call runs processCompanyQueue synchronously up to
its first await, setting the flag) and one worker-loop iteration (whose
suspension point is the awaited fetch).  fetchOutcome is the environment:
none models a fetch that throws mid-extraction, which
scrapeCompanyDetailsInWorker catches, returning all-empty defaults. -/

/-- The five enrichment fields of the CompanyDetails interface. -/
structure CompanyDetails where
  companyWebsite : String
  companyDescription : String
  companyAddress : String
  companyEmployeesCount : String
  industries : String
deriving DecidableEq, Repr

/-- The defaultDetails value of scrapeCompanyDetailsInWorker. -/
def defaultDetails : CompanyDetails :=
  { companyWebsite := "", companyDescription := "", companyAddress := "",
    companyEmployeesCount := "", industries := "" }

/-- LinkedInScraper.scrapeCompanyDetailsInWorker: navigates to the company
page and extracts the five fields; every failure is caught inside and
yields the all-empty defaults. -/
def scrapeCompanyDetailsInWorker (fetchOutcome : String → Option CompanyDetails)
    (url : String) : CompanyDetails :=
  (fetchOutcome url).getD defaultDetails

/-- JS Map lookup (Map.get) over an insertion-ordered association list. -/
def mapFind : List (String × CompanyDetails) → String → Option CompanyDetails
  | [], _ => none
  | p :: rest, k => if p.1 = k then some p.2 else mapFind rest k

/-- JS Map.has. -/
def mapHas (m : List (String × CompanyDetails)) (k : String) : Bool :=
  (mapFind m k).isSome

/-- JS Map.set: update in place if the key exists, else append. -/
def mapSet : List (String × CompanyDetails) → String → CompanyDetails →
    List (String × CompanyDetails)
  | [], k, v => [(k, v)]
  | p :: rest, k, v => if p.1 = k then (k, v) :: rest else p :: mapSet rest k v

/-- JS Set.add over an insertion-ordered duplicate-free list. -/
def setAdd (s : List String) (x : String) : List String :=
  if x ∈ s then s else s ++ [x]

/-- The queue-related mutable state of a LinkedInScraper instance, plus a
history of fetch attempts (fetchLog records each call of
scrapeCompanyDetailsInWorker made by the worker loop). -/
structure QueueState where
  companyQueue : List String
  companyDetailsCache : List (String × CompanyDetails)
  isProcessingQueue : Bool
  workerIdx : Nat
  fetchLog : List String
deriving DecidableEq, Repr

/-- Initial state of a fresh scraper instance. -/
def initQueueState : QueueState :=
  { companyQueue := [], companyDetailsCache := [], isProcessingQueue := false,
    workerIdx := 0, fetchLog := [] }

/-- The atomic interleaved actions: an enqueue from the pagination flow,
or one iteration of the worker loop. -/
inductive QAction where
  | enqueue (url : String)
  | workerStep
deriving DecidableEq, Repr

/-- The companyLinkedinUrl block of scrapeJobListings: a truthy url is
added to companyQueue and, if the worker flag is down, processCompanyQueue
is fired, which synchronously raises the flag and starts a fresh iteration
of the queue before suspending at its first await. -/
def enqueueCompany (s : QueueState) (url : String) : QueueState :=
  if url = "" then s
  else if s.isProcessingQueue then
    { s with companyQueue := setAdd s.companyQueue url }
  else
    { s with companyQueue := setAdd s.companyQueue url,
             isProcessingQueue := true, workerIdx := 0 }

/-- One iteration of the for-of loop of processCompanyQueue (a JS Set
iterator visits elements in insertion order, including elements added
during iteration): skip a cached url, otherwise fetch it and cache the
result; when the iterator is exhausted, lower the worker flag. -/
def workerStep (fetchOutcome : String → Option CompanyDetails)
    (s : QueueState) : QueueState :=
  if s.isProcessingQueue = false then s
  else if h : s.workerIdx < s.companyQueue.length then
    if mapHas s.companyDetailsCache (s.companyQueue[s.workerIdx]) then
      { s with workerIdx := s.workerIdx + 1 }
    else
      { s with
        companyDetailsCache := mapSet s.companyDetailsCache (s.companyQueue[s.workerIdx])
          (scrapeCompanyDetailsInWorker fetchOutcome (s.companyQueue[s.workerIdx])),
        fetchLog := s.fetchLog ++ [s.companyQueue[s.workerIdx]],
        workerIdx := s.workerIdx + 1 }
  else { s with isProcessingQueue := false }

/-- Apply one interleaved action. -/
def applyAction (fetchOutcome : String → Option CompanyDetails)
    (s : QueueState) : QAction → QueueState
  | .enqueue url => enqueueCompany s url
  | .workerStep => workerStep fetchOutcome s

/-- Run an interleaving of actions from a state. -/
def runTrace (fetchOutcome : String → Option CompanyDetails) :
    List QAction → QueueState → QueueState
  | [], s => s
  | a :: t, s => runTrace fetchOutcome t (applyAction fetchOutcome s a)

/-! ## Job records and the enrichment merge step -/

/-- The Job record created per listing by scrapeJobListings. -/
structure Job where
  id : String
  title : String
  link : String
  applyUrl : String
  location : String
  postedAt : String
  companyName : String
  companyLinkedinUrl : String
  companyWebsite : String
  companyDescription : String
  companyAddress : String
  companyEmployeesCount : String
  description : String
  industries : String
deriving DecidableEq, Repr

/-- The body of the enrichment merge loop of scrapeJobListings: if the
record has a truthy companyLinkedinUrl with a cache entry, the five
enrichment fields are copied from the cached details. -/
def enrichJob (cache : List (String × CompanyDetails)) (job : Job) : Job :=
  if job.companyLinkedinUrl = "" then job
  else
    match mapFind cache job.companyLinkedinUrl with
    | some details =>
      { job with
        companyWebsite := details.companyWebsite,
        companyDescription := details.companyDescription,
        companyAddress := details.companyAddress,
        companyEmployeesCount := details.companyEmployeesCount,
        industries := details.industries }
    | none => job

/-- The enrichment merge loop over all scraped jobs. -/
def enrichJobs (cache : List (String × CompanyDetails)) (jobs : List Job) : List Job :=
  jobs.map (enrichJob cache)

/-! ## Pagination page bound (scrapeJobListings while loop) -/

/-- maxPages = Math.ceil(maxJobs / 25). -/
def maxPagesFor (maxJobs : Nat) : Nat := (maxJobs + 24) / 25

/-- The pagination while loop, abstracted over the page environment:
cards p is the number of job cards the first matching selector strategy
finds on the p-th visited page, failures p how many of the attempted
records on that page threw during extraction (caught and skipped), and
nextEnabled p whether an enabled next-page control exists afterwards.
The fuel argument carries the remaining page budget
(maxPages - currentPage + 1); the result counts visited pages. -/
def scrapePagesLoop (cards : Nat → Nat) (nextEnabled : Nat → Bool)
    (failures : Nat → Nat) (maxJobs : Nat) : Nat → Nat → Nat → Nat
  | 0, _, _ => 0
  | fuel + 1, page, collected =>
    if maxJobs ≤ collected then 0
    else if cards page = 0 then 1
    else if maxJobs ≤ collected + (min (cards page) (maxJobs - collected) - failures page) then 1
    else if nextEnabled page = false then 1
    else 1 + scrapePagesLoop cards nextEnabled failures maxJobs fuel (page + 1)
      (collected + (min (cards page) (maxJobs - collected) - failures page))

/-- Number of result pages visited by the scrapeJobListings loop. -/
def pagesVisited (cards : Nat → Nat) (nextEnabled : Nat → Bool)
    (failures : Nat → Nat) (maxJobs : Nat) : Nat :=
  scrapePagesLoop cards nextEnabled failures maxJobs (maxPagesFor maxJobs) 1 0

/-! ## Login state machine (LinkedInScraper.login) -/

/-- Does the pattern occur as a contiguous substring (JS String.includes)? -/
def containsSub (pat : List Char) : List Char → Bool
  | [] => pat.isPrefixOf []
  | c :: rest => pat.isPrefixOf (c :: rest) || containsSub pat rest

/-- JS s.includes(pat). -/
def includes (s pat : String) : Bool := containsSub pat.data s.data

/-- The authenticated-address check used after session replay, after the
login form and after code submission: the address includes feed,
mynetwork or jobs. -/
def isLoggedInUrl (u : String) : Bool :=
  includes u "feed" || includes u "mynetwork" || includes u "jobs"

/-- The challenge-address check: the address includes challenge or
checkpoint. -/
def isChallengeUrl (u : String) : Bool :=
  includes u "challenge" || includes u "checkpoint"

/-- The timeout of the manual-completion wait (page.waitForURL), in
milliseconds. -/
def manualWaitTimeoutMs : Nat := 120000

/-- The login environment: outcomes of the navigations and element
lookups of one login() run.  manualAuthUrlAtMs is the instant (ms after
the manual wait starts) at which the address first includes feed or jobs,
none if it never does; gmailCode none covers both a Gmail fetch returning
nothing and a thrown Gmail error. -/
structure LoginEnv where
  sessionLoaded : Bool
  urlAfterSessionCheck : String
  urlAfterSubmit : String
  codeInputFound : Bool
  gmailCode : Option String
  submitButtonFound : Bool
  urlAfterCodeSubmit : String
  manualAuthUrlAtMs : Option Nat
deriving DecidableEq, Repr

/-- The outcome of one login() run: whether it returned true, and how
many times saveCookies was called. -/
structure LoginResult where
  success : Bool
  saveCookiesCalls : Nat
deriving DecidableEq, Repr

/-- The manual-entry fallback of the challenge branch: wait up to
manualWaitTimeoutMs for an address including feed or jobs; on success
save cookies and return true, on timeout return false. -/
def manualChallengeWait (env : LoginEnv) : LoginResult :=
  match env.manualAuthUrlAtMs with
  | some m =>
    if m ≤ manualWaitTimeoutMs then { success := true, saveCookiesCalls := 1 }
    else { success := false, saveCookiesCalls := 0 }
  | none => { success := false, saveCookiesCalls := 0 }

/-- LinkedInScraper.login for a fresh instance (loggedIn initially false):
session replay short-circuit, fresh form login, challenge resolution via
the Gmail code, manual fallback, or the ambiguous-address failure. -/
def login (env : LoginEnv) : LoginResult :=
  if env.sessionLoaded && isLoggedInUrl env.urlAfterSessionCheck then
    { success := true, saveCookiesCalls := 0 }
  else if isLoggedInUrl env.urlAfterSubmit then
    { success := true, saveCookiesCalls := 1 }
  else if isChallengeUrl env.urlAfterSubmit then
    if env.codeInputFound then
      match env.gmailCode with
      | some _ =>
        if env.submitButtonFound && isLoggedInUrl env.urlAfterCodeSubmit then
          { success := true, saveCookiesCalls := 1 }
        else manualChallengeWait env
      | none => manualChallengeWait env
    else manualChallengeWait env
  else { success := false, saveCookiesCalls := 0 }

/-- The authentication step of searchJobs: a false login() return is
turned into a thrown Login failed error, which rejects the search. -/
def searchJobsAuth (env : LoginEnv) : Except String Unit :=
  if (login env).success then Except.ok () else Except.error "Login failed"

/-! ## Query-builder lemmas -/

theorem joinSep_cons_eq (sep x : String) (xs : List String) :
    ∃ r, joinSep sep (x :: xs) = x ++ r := by
  cases xs with
  | nil => exact ⟨"", by simp [joinSep]⟩
  | cons y ys => exact ⟨sep ++ joinSep sep (y :: ys), by simp [joinSep, String.append_assoc]⟩

theorem joinSep_ne_empty {sep x : String} (xs : List String) (hx : x ≠ "") :
    joinSep sep (x :: xs) ≠ "" := by
  obtain ⟨r, hr⟩ := joinSep_cons_eq sep x xs
  rw [hr]
  intro h
  have h2 := congrArg String.data h
  rw [String.data_append] at h2
  have hnil : x.data = [] := (List.append_eq_nil.mp h2).1
  exact hx (by cases x; cases hnil; rfl)

theorem fst_of_mem_keywordsParams {f : SearchFilters} {p : String × String}
    (h : p ∈ keywordsParams f) : p.1 = "keywords" := by
  unfold keywordsParams at h
  split at h
  · split at h
    · simp at h
    · simp at h
      simp [h]
  · simp at h

theorem fst_of_mem_locationParams {f : SearchFilters} {p : String × String}
    (h : p ∈ locationParams f) : p.1 = "location" := by
  unfold locationParams at h
  split at h
  · split at h
    · simp at h
    · simp at h
      simp [h]
  · simp at h

theorem fst_of_mem_datePostedParams {f : SearchFilters} {p : String × String}
    (h : p ∈ datePostedParams f) : p.1 = "f_TPR" := by
  unfold datePostedParams at h
  split at h
  · split at h
    · simp at h
    · split at h
      · simp at h
      · simp at h
        simp [h]
  · simp at h

theorem fst_of_mem_experienceLevelParams {f : SearchFilters} {p : String × String}
    (h : p ∈ experienceLevelParams f) : p.1 = "f_E" := by
  unfold experienceLevelParams at h
  split at h
  · split at h
    · split at h
      · simp at h
      · simp at h
        simp [h]
    · simp at h
  · simp at h

theorem fst_of_mem_jobTypeParams {f : SearchFilters} {p : String × String}
    (h : p ∈ jobTypeParams f) : p.1 = "f_JT" := by
  unfold jobTypeParams at h
  split at h
  · split at h
    · split at h
      · simp at h
      · simp at h
        simp [h]
    · simp at h
  · simp at h

theorem fst_of_mem_remoteParams {f : SearchFilters} {p : String × String}
    (h : p ∈ remoteParams f) : p.1 = "f_WT" := by
  unfold remoteParams at h
  split at h
  · split at h
    · split at h
      · simp at h
      · simp at h
        simp [h]
    · simp at h
  · simp at h

theorem filter_fst_eq_of_all {α : Type} {ps : List (String × α)} {m : String}
    (hall : ∀ p ∈ ps, p.1 = m) (n : String) :
    ps.filter (fun p => p.1 = n) = if n = m then ps else [] := by
  split
  · next hnm =>
    refine List.filter_eq_self.mpr (fun p hp => ?_)
    simp [hall p hp, hnm]
  · next hnm =>
    rw [List.filter_eq_nil_iff]
    intro p hp
    simp [hall p hp]
    exact fun hmn => hnm hmn.symm

theorem datePostedParams_eq (f : SearchFilters) :
    datePostedParams f =
      (match f.datePosted with
       | some dp =>
         if dp = DatePosted.anyTime then [] else [("f_TPR", LinkedInFilters.datePosted dp)]
       | none => []) := by
  unfold datePostedParams
  rcases f.datePosted with _ | dp
  · rfl
  · cases dp <;> simp [LinkedInFilters.datePosted]

theorem experienceLevelParams_eq (f : SearchFilters) :
    experienceLevelParams f =
      (match f.experienceLevel with
       | some ls =>
         if ls = [] then []
         else [("f_E", joinSep "," (ls.map LinkedInFilters.experienceLevel))]
       | none => []) := by
  unfold experienceLevelParams
  rcases f.experienceLevel with _ | ls
  · rfl
  · cases ls with
    | nil => simp
    | cons x xs =>
      have hcodes : (List.map LinkedInFilters.experienceLevel (x :: xs)).filter
          (fun s => s != "") = List.map LinkedInFilters.experienceLevel (x :: xs) := by
        refine List.filter_eq_self.mpr (fun s hs => ?_)
        obtain ⟨l, _, rfl⟩ := List.mem_map.mp hs
        cases l <;> decide
      have hne : joinSep "," (List.map LinkedInFilters.experienceLevel (x :: xs)) ≠ "" := by
        rw [List.map_cons]
        exact joinSep_ne_empty _ (by cases x <;> decide)
      simp only [List.map_cons] at hcodes hne ⊢
      simp [hcodes, hne]

theorem jobTypeParams_eq (f : SearchFilters) :
    jobTypeParams f =
      (match f.jobType with
       | some ls =>
         if ls = [] then []
         else [("f_JT", joinSep "," (ls.map LinkedInFilters.jobType))]
       | none => []) := by
  unfold jobTypeParams
  rcases f.jobType with _ | ls
  · rfl
  · cases ls with
    | nil => simp
    | cons x xs =>
      have hcodes : (List.map LinkedInFilters.jobType (x :: xs)).filter
          (fun s => s != "") = List.map LinkedInFilters.jobType (x :: xs) := by
        refine List.filter_eq_self.mpr (fun s hs => ?_)
        obtain ⟨l, _, rfl⟩ := List.mem_map.mp hs
        cases l <;> decide
      have hne : joinSep "," (List.map LinkedInFilters.jobType (x :: xs)) ≠ "" := by
        rw [List.map_cons]
        exact joinSep_ne_empty _ (by cases x <;> decide)
      simp only [List.map_cons] at hcodes hne ⊢
      simp [hcodes, hne]

theorem remoteParams_eq (f : SearchFilters) :
    remoteParams f =
      (match f.remote with
       | some ls =>
         if ls = [] then []
         else [("f_WT", joinSep "," (ls.map LinkedInFilters.remote))]
       | none => []) := by
  unfold remoteParams
  rcases f.remote with _ | ls
  · rfl
  · cases ls with
    | nil => simp
    | cons x xs =>
      have hcodes : (List.map LinkedInFilters.remote (x :: xs)).filter
          (fun s => s != "") = List.map LinkedInFilters.remote (x :: xs) := by
        refine List.filter_eq_self.mpr (fun s hs => ?_)
        obtain ⟨l, _, rfl⟩ := List.mem_map.mp hs
        cases l <;> decide
      have hne : joinSep "," (List.map LinkedInFilters.remote (x :: xs)) ≠ "" := by
        rw [List.map_cons]
        exact joinSep_ne_empty _ (by cases x <;> decide)
      simp only [List.map_cons] at hcodes hne ⊢
      simp [hcodes, hne]

/-- C1: for every SearchFilters input, the URLSearchParams list built by
buildSearchUrl holds exactly one parameter per non-empty filter field
(keywords, location, f_TPR, f_E, f_JT, f_WT), none for absent or empty
fields, multi-valued fields are mapped element-wise through the static
LinkedInFilters tables and comma-joined into one parameter, a datePosted
of any-time contributes nothing, and no other parameter names occur. -/
theorem buildParams_field_spec (f : SearchFilters) :
    ((buildParams f).filter (fun p => p.1 = "keywords") =
      (match f.keywords with
       | some k => if k = "" then [] else [("keywords", k)]
       | none => [])) ∧
    ((buildParams f).filter (fun p => p.1 = "location") =
      (match f.location with
       | some l => if l = "" then [] else [("location", l)]
       | none => [])) ∧
    ((buildParams f).filter (fun p => p.1 = "f_TPR") =
      (match f.datePosted with
       | some dp =>
         if dp = DatePosted.anyTime then [] else [("f_TPR", LinkedInFilters.datePosted dp)]
       | none => [])) ∧
    ((buildParams f).filter (fun p => p.1 = "f_E") =
      (match f.experienceLevel with
       | some ls =>
         if ls = [] then []
         else [("f_E", joinSep "," (ls.map LinkedInFilters.experienceLevel))]
       | none => [])) ∧
    ((buildParams f).filter (fun p => p.1 = "f_JT") =
      (match f.jobType with
       | some ls =>
         if ls = [] then []
         else [("f_JT", joinSep "," (ls.map LinkedInFilters.jobType))]
       | none => [])) ∧
    ((buildParams f).filter (fun p => p.1 = "f_WT") =
      (match f.remote with
       | some ls =>
         if ls = [] then []
         else [("f_WT", joinSep "," (ls.map LinkedInFilters.remote))]
       | none => [])) ∧
    (∀ p ∈ buildParams f,
      p.1 = "keywords" ∨ p.1 = "location" ∨ p.1 = "f_TPR" ∨ p.1 = "f_E" ∨
        p.1 = "f_JT" ∨ p.1 = "f_WT") := by
  have h1 := filter_fst_eq_of_all (fun p hp => fst_of_mem_keywordsParams (f := f) hp)
  have h2 := filter_fst_eq_of_all (fun p hp => fst_of_mem_locationParams (f := f) hp)
  have h3 := filter_fst_eq_of_all (fun p hp => fst_of_mem_datePostedParams (f := f) hp)
  have h4 := filter_fst_eq_of_all (fun p hp => fst_of_mem_experienceLevelParams (f := f) hp)
  have h5 := filter_fst_eq_of_all (fun p hp => fst_of_mem_jobTypeParams (f := f) hp)
  have h6 := filter_fst_eq_of_all (fun p hp => fst_of_mem_remoteParams (f := f) hp)
  refine ⟨?_, ?_, ?_, ?_, ?_, ?_, ?_⟩
  · simp only [buildParams, List.filter_append, h1, h2, h3, h4, h5, h6]
    simp [keywordsParams]
  · simp only [buildParams, List.filter_append, h1, h2, h3, h4, h5, h6]
    simp [locationParams]
  · simp only [buildParams, List.filter_append, h1, h2, h3, h4, h5, h6]
    simp [datePostedParams_eq]
  · simp only [buildParams, List.filter_append, h1, h2, h3, h4, h5, h6]
    simp [experienceLevelParams_eq]
  · simp only [buildParams, List.filter_append, h1, h2, h3, h4, h5, h6]
    simp [jobTypeParams_eq]
  · simp only [buildParams, List.filter_append, h1, h2, h3, h4, h5, h6]
    simp [remoteParams_eq]
  · intro p hp
    simp only [buildParams, List.mem_append] at hp
    rcases hp with ((((hp | hp) | hp) | hp) | hp) | hp
    · exact Or.inl (fst_of_mem_keywordsParams hp)
    · exact Or.inr (Or.inl (fst_of_mem_locationParams hp))
    · exact Or.inr (Or.inr (Or.inl (fst_of_mem_datePostedParams hp)))
    · exact Or.inr (Or.inr (Or.inr (Or.inl (fst_of_mem_experienceLevelParams hp))))
    · exact Or.inr (Or.inr (Or.inr (Or.inr (Or.inl (fst_of_mem_jobTypeParams hp)))))
    · exact Or.inr (Or.inr (Or.inr (Or.inr (Or.inr (fst_of_mem_remoteParams hp)))))

/-- Witness for C1: the parameter list at a concrete filter input has
exactly the comma-joined f_JT parameter, and a concrete pair drawn from
it carries one of the six parameter names. -/
theorem buildParams_field_spec_witness :
    ((buildParams { keywords := some "dev",
                    jobType := some [JobType.fullTime, JobType.contract] }).filter
        (fun p => p.1 = "f_JT") =
      [("f_JT", joinSep "," ([JobType.fullTime, JobType.contract].map LinkedInFilters.jobType))]) ∧
    ((("keywords", "dev") : String × String).1 = "keywords" ∨
      (("keywords", "dev") : String × String).1 = "location" ∨
      (("keywords", "dev") : String × String).1 = "f_TPR" ∨
      (("keywords", "dev") : String × String).1 = "f_E" ∨
      (("keywords", "dev") : String × String).1 = "f_JT" ∨
      (("keywords", "dev") : String × String).1 = "f_WT") :=
  ⟨(buildParams_field_spec _).2.2.2.2.1,
    (buildParams_field_spec
      { keywords := some "dev",
        jobType := some [JobType.fullTime, JobType.contract] }).2.2.2.2.2.2
      ("keywords", "dev") (by decide)⟩

/-- C9: scenario A: for the filters keywords "Full stack developer",
location "Bengaluru, India", datePosted past-week, jobType full-time,
the built search URL equals the JOBS_SEARCH_URL followed by the query
string keywords=Full+stack+developer&location=Bengaluru%2C+India&f_TPR=r604800&f_JT=F,
which it therefore contains as a substring. -/
theorem scenario_a_query_string :
    buildSearchUrl
        { keywords := some "Full stack developer", location := some "Bengaluru, India",
          datePosted := some DatePosted.pastWeek, jobType := some [JobType.fullTime] } =
      "https://www.linkedin.com/jobs/search?keywords=Full+stack+developer&location=Bengaluru%2C+India&f_TPR=r604800&f_JT=F" ∧
    List.IsInfix
      "keywords=Full+stack+developer&location=Bengaluru%2C+India&f_TPR=r604800&f_JT=F".data
      (buildSearchUrl
        { keywords := some "Full stack developer", location := some "Bengaluru, India",
          datePosted := some DatePosted.pastWeek, jobType := some [JobType.fullTime] }).data := by
  constructor
  · rfl
  · exact ⟨"https://www.linkedin.com/jobs/search?".data, [], by rfl⟩

/-! ## Canonicalization lemmas -/

theorem prefix_takeWhile {p l : List Char} {f : Char → Bool} (hp : p <+: l)
    (hall : ∀ c ∈ p, f c = true) : p <+: l.takeWhile f := by
  induction p generalizing l with
  | nil => exact List.nil_prefix
  | cons c cs ih =>
    obtain ⟨t, rfl⟩ := hp
    rw [List.cons_append, List.takeWhile_cons, if_pos (hall c (by simp))]
    rw [List.cons_prefix_cons]
    exact ⟨rfl, ih (List.prefix_append cs t) (fun a ha => hall a (by simp [ha]))⟩

theorem http_prefix_cleanCompanyUrl (href : String) :
    "http".data <+: cleanCompanyUrl href := by
  unfold cleanCompanyUrl
  split
  · next hp =>
    exact prefix_takeWhile ( List.isPrefixOf_iff_prefix.mp hp) (by decide)
  · exact ⟨"s://www.linkedin.com".data ++ takeBeforeQuery href.data, by
      rw [← List.append_assoc]; rfl⟩

theorem no_qm_cleanCompanyUrl (href : String) :
    ∀ c ∈ cleanCompanyUrl href, c ≠ '?' := by
  unfold cleanCompanyUrl
  intro c hc
  have hq : ∀ a ∈ takeBeforeQuery href.data, a ≠ '?' := by
    intro a ha
    have := List.mem_takeWhile_imp (p := fun c => c != '?') ha
    simpa using this
  split at hc
  · exact hq c hc
  · rcases List.mem_append.mp hc with h | h
    · have hcon : ∀ a ∈ "https://www.linkedin.com".data, a ≠ '?' := by decide
      exact hcon c h
    · exact hq c h

theorem http_prefix_stripLife {l : List Char} (h : "http".data <+: l) :
    "http".data <+: stripLifeSuffix l := by
  unfold stripLifeSuffix
  split
  · next hsuf =>
    obtain ⟨s, rfl⟩ := List.isSuffixOf_iff_suffix.mp hsuf
    have hlen : (s ++ "/life".data).length - 5 = s.length := by simp
    rw [hlen, List.take_left]
    by_cases h4 : 4 ≤ s.length
    · exact List.prefix_of_prefix_length_le h (List.prefix_append s _) (by simpa using h4)
    · exfalso
      push_neg at h4
      obtain ⟨t, ht⟩ := h
      rcases s with _ | ⟨a, _ | ⟨b, _ | ⟨c, _ | ⟨d, rest⟩⟩⟩⟩
      · simp at ht
      · simp [List.cons_append] at ht
      · simp [List.cons_append] at ht
      · simp [List.cons_append] at ht
      · simp at h4
        omega
  · exact h

theorem mem_stripLife {l : List Char} {c : Char} (h : c ∈ stripLifeSuffix l) : c ∈ l := by
  unfold stripLifeSuffix at h
  split at h
  · exact ( List.take_prefix _ l).subset h
  · exact h

theorem not_life_suffix_stripLife {l : List Char}
    (h2 : "/life/life".data.isSuffixOf l = false) :
    "/life".data.isSuffixOf (stripLifeSuffix l) = false := by
  unfold stripLifeSuffix
  split
  · next hsuf =>
    obtain ⟨s, rfl⟩ := List.isSuffixOf_iff_suffix.mp hsuf
    have hlen : (s ++ "/life".data).length - 5 = s.length := by simp
    rw [hlen, List.take_left]
    by_contra hlife
    rw [Bool.not_eq_false, List.isSuffixOf_iff_suffix] at hlife
    obtain ⟨u, rfl⟩ := hlife
    have : "/life/life".data.isSuffixOf ((u ++ "/life".data) ++ "/life".data) = true := by
      rw [List.isSuffixOf_iff_suffix]
      exact ⟨u, by simp⟩
    rw [this] at h2
    simp at h2
  · next hsuf =>
    exact Bool.eq_false_iff.mpr hsuf

theorem mem_setAdd {s : List String} {x y : String} (h : y ∈ setAdd s x) :
    y ∈ s ∨ y = x := by
  unfold setAdd at h
  split at h
  · exact Or.inl h
  · rcases List.mem_append.mp h with h | h
    · exact Or.inl h
    · exact Or.inr (by simpa using h)

theorem queue_applyAction_no_empty {fo : String → Option CompanyDetails}
    {s : QueueState} {a : QAction} (h : "" ∉ s.companyQueue) :
    "" ∉ (applyAction fo s a).companyQueue := by
  cases a with
  | enqueue url =>
    show "" ∉ (enqueueCompany s url).companyQueue
    unfold enqueueCompany
    split
    · exact h
    · next hne =>
      split
      · intro hmem
        rcases mem_setAdd hmem with hm | hm
        · exact h hm
        · exact hne hm.symm
      · intro hmem
        rcases mem_setAdd hmem with hm | hm
        · exact h hm
        · exact hne hm.symm
  | workerStep =>
    show "" ∉ (workerStep fo s).companyQueue
    unfold workerStep
    split
    · exact h
    · split
      · split
        · exact h
        · exact h
      · exact h

theorem queue_runTrace_no_empty (fo : String → Option CompanyDetails)
    (t : List QAction) {s : QueueState} (h : "" ∉ s.companyQueue) :
    "" ∉ (runTrace fo t s).companyQueue := by
  induction t generalizing s with
  | nil => exact h
  | cons a t ih => exact ih (queue_applyAction_no_empty h)

/-- C10 (amended): every companyLinkedinUrl value built from a company
href (and hence every enqueued orgRef) starts with http, holds no query
string, and has one trailing /life segment stripped: it can still end in
/life only when the query-stripped absolutized href ended in /life/life.
An empty reference is never present in the enrichment queue. -/
theorem company_url_canonical (href : String) :
    "http".data.isPrefixOf (canonicalCompanyUrl href).data = true ∧
    (∀ c ∈ (canonicalCompanyUrl href).data, c ≠ '?') ∧
    ("/life/life".data.isSuffixOf (cleanCompanyUrl href) = false →
      "/life".data.isSuffixOf (canonicalCompanyUrl href).data = false) ∧
    (∀ fetchOutcome t, "" ∉ (runTrace fetchOutcome t initQueueState).companyQueue) := by
  have hdata : (canonicalCompanyUrl href).data = stripLifeSuffix (cleanCompanyUrl href) := rfl
  refine ⟨?_, ?_, ?_, ?_⟩
  · rw [ List.isPrefixOf_iff_prefix, hdata]
    exact http_prefix_stripLife (http_prefix_cleanCompanyUrl href)
  · intro c hc
    rw [hdata] at hc
    exact no_qm_cleanCompanyUrl href c (mem_stripLife hc)
  · intro h2
    rw [hdata]
    exact not_life_suffix_stripLife h2
  · intro fo t
    exact queue_runTrace_no_empty fo t (by simp [initQueueState])

/-- Witness for company_url_canonical: the relative href
/company/acme?trk=x satisfies the suffix hypothesis, and its stored
canonical form indeed does not end in /life. -/
theorem company_url_canonical_witness :
    "/life/life".data.isSuffixOf (cleanCompanyUrl "/company/acme?trk=x") = false ∧
    "/life".data.isSuffixOf (canonicalCompanyUrl "/company/acme?trk=x").data = false :=
  ⟨by decide, (company_url_canonical "/company/acme?trk=x").2.2.1 (by decide)⟩

/-- C10 counterexample: the claim reads every stored reference as having
its trailing /life stripped, but the replacement removes only one
occurrence: a company href ending in /life/life is stored still ending
in /life. -/
theorem company_url_double_life :
    canonicalCompanyUrl "https://www.linkedin.com/company/acme/life/life" =
      "https://www.linkedin.com/company/acme/life" ∧
    "/life".data.isSuffixOf
      (canonicalCompanyUrl "https://www.linkedin.com/company/acme/life/life").data = true := by
  constructor
  · decide
  · decide

/-! ## Enrichment queue lemmas -/

theorem mapFind_mapSet (m : List (String × CompanyDetails)) (k : String)
    (v : CompanyDetails) (u : String) :
    mapFind (mapSet m k v) u = if u = k then some v else mapFind m u := by
  induction m with
  | nil =>
    simp only [mapSet, mapFind]
    by_cases h : u = k
    · simp [h]
    · have hku : ¬k = u := fun hh => h hh.symm
      simp [h, hku]
  | cons p rest ih =>
    by_cases hpk : p.1 = k
    · simp only [mapSet, if_pos hpk, mapFind]
      by_cases huk : u = k
      · simp [huk]
      · have hku : ¬k = u := fun hh => huk hh.symm
        have hpu : ¬p.1 = u := fun hh => hku (hpk.symm.trans hh)
        simp [huk, hku, hpu]
    · simp only [mapSet, if_neg hpk, mapFind, ih]
      by_cases hpu : p.1 = u
      · have huk : ¬u = k := fun hh => hpk (hh ▸ hpu)
        simp [hpu, huk]
      · simp [hpu]

theorem mapHas_mapSet (m : List (String × CompanyDetails)) (k : String)
    (v : CompanyDetails) (u : String) :
    mapHas (mapSet m k v) u = (u = k || mapHas m u) := by
  unfold mapHas
  rw [mapFind_mapSet]
  by_cases h : u = k <;> simp [h]

/-- The inductive invariant of the enrichment queue transition system. -/
structure QInv (fetchOutcome : String → Option CompanyDetails) (s : QueueState) : Prop where
  cache_iff_fetched : ∀ u, mapHas s.companyDetailsCache u = true ↔ u ∈ s.fetchLog
  fetch_once : ∀ u, s.fetchLog.count u ≤ 1
  cache_values : ∀ u ∈ s.fetchLog,
    mapFind s.companyDetailsCache u = some (scrapeCompanyDetailsInWorker fetchOutcome u)
  idx_le : s.isProcessingQueue = true → s.workerIdx ≤ s.companyQueue.length
  visited_cached : s.isProcessingQueue = true →
    ∀ u ∈ s.companyQueue.take s.workerIdx, mapHas s.companyDetailsCache u = true
  idle_cached : s.isProcessingQueue = false →
    ∀ u ∈ s.companyQueue, mapHas s.companyDetailsCache u = true

theorem QInv_init (fetchOutcome : String → Option CompanyDetails) :
    QInv fetchOutcome initQueueState := by
  constructor <;> simp [initQueueState, mapHas, mapFind]

theorem QInv_enqueue {fetchOutcome : String → Option CompanyDetails}
    {s : QueueState} (hinv : QInv fetchOutcome s) (url : String) :
    QInv fetchOutcome (enqueueCompany s url) := by
  unfold enqueueCompany
  split
  · exact hinv
  · next hne =>
    split
    · next hrun =>
      refine ⟨hinv.cache_iff_fetched, hinv.fetch_once, hinv.cache_values, ?_, ?_, ?_⟩
      · intro _
        calc s.workerIdx ≤ s.companyQueue.length := hinv.idx_le hrun
          _ ≤ (setAdd s.companyQueue url).length := by
            unfold setAdd
            split
            · exact le_refl _
            · simp
      · intro _ u hu
        apply hinv.visited_cached hrun u
        unfold setAdd at hu
        split at hu
        · exact hu
        · rwa [List.take_append_of_le_length (hinv.idx_le hrun)] at hu
      · intro hfls
        simp only at hfls
        rw [hrun] at hfls
        exact absurd hfls (by simp)
    · next hrun =>
      refine ⟨hinv.cache_iff_fetched, hinv.fetch_once, hinv.cache_values, ?_, ?_, ?_⟩
      · intro _
        exact Nat.zero_le _
      · intro _ u hu
        simp at hu
      · intro h
        simp at h

theorem QInv_workerStep {fetchOutcome : String → Option CompanyDetails}
    {s : QueueState} (hinv : QInv fetchOutcome s) :
    QInv fetchOutcome (workerStep fetchOutcome s) := by
  unfold workerStep
  split
  · exact hinv
  · next hrun =>
    rw [Bool.not_eq_false] at hrun
    split
    · next hlt =>
      split
      · next hcached =>
        refine ⟨hinv.cache_iff_fetched, hinv.fetch_once, hinv.cache_values, ?_, ?_, ?_⟩
        · intro _
          exact hlt
        · intro _ u hu
          rw [List.take_succ] at hu
          rcases List.mem_append.mp hu with h | h
          · exact hinv.visited_cached hrun u h
          · rw [List.getElem?_eq_getElem hlt] at h
            simp only [Option.toList_some, List.mem_singleton] at h
            rw [h]
            exact hcached
        · intro h
          rw [h] at hrun
          exact absurd hrun (by simp)
      · next hcached =>
        have hnotmem : s.companyQueue[s.workerIdx] ∉ s.fetchLog := by
          intro hmem
          exact absurd ((hinv.cache_iff_fetched _).mpr hmem) (by simpa using hcached)
        refine ⟨?_, ?_, ?_, ?_, ?_, ?_⟩
        · intro u
          simp only [mapHas_mapSet, List.mem_append, List.mem_singleton]
          by_cases h : u = s.companyQueue[s.workerIdx]
          · simp [h]
          · simp [h, hinv.cache_iff_fetched u]
        · intro u
          rw [List.count_append]
          by_cases h : u = s.companyQueue[s.workerIdx]
          · subst h
            have hz := List.count_eq_zero.mpr hnotmem
            simp [hz]
          · have : List.count u [s.companyQueue[s.workerIdx]] = 0 :=
              List.count_eq_zero.mpr (by simpa using h)
            rw [this]
            simpa using hinv.fetch_once u
        · intro u hu
          rw [mapFind_mapSet]
          rcases List.mem_append.mp hu with h | h
          · have hne : u ≠ s.companyQueue[s.workerIdx] := by
              intro hh
              exact hnotmem (hh ▸ h)
            rw [if_neg hne]
            exact hinv.cache_values u h
          · simp only [List.mem_singleton] at h
            rw [if_pos h, h]
        · intro _
          exact hlt
        · intro _ u hu
          rw [List.take_succ] at hu
          rw [mapHas_mapSet]
          rcases List.mem_append.mp hu with h | h
          · simp [hinv.visited_cached hrun u h]
          · rw [List.getElem?_eq_getElem hlt] at h
            simp only [Option.toList_some, List.mem_singleton] at h
            simp [h]
        · intro h
          rw [h] at hrun
          exact absurd hrun (by simp)
    · next hge =>
      have hidx : s.workerIdx = s.companyQueue.length :=
        Nat.le_antisymm (hinv.idx_le hrun) (Nat.le_of_not_lt hge)
      refine ⟨hinv.cache_iff_fetched, hinv.fetch_once, hinv.cache_values, ?_, ?_, ?_⟩
      · intro h
        simp at h
      · intro h
        simp at h
      · intro _ u hu
        have := hinv.visited_cached hrun u
        rw [hidx, List.take_length] at this
        exact this hu

theorem QInv_applyAction {fetchOutcome : String → Option CompanyDetails}
    {s : QueueState} (hinv : QInv fetchOutcome s) (a : QAction) :
    QInv fetchOutcome (applyAction fetchOutcome s a) := by
  cases a with
  | enqueue url => exact QInv_enqueue hinv url
  | workerStep => exact QInv_workerStep hinv

theorem QInv_runTrace (fetchOutcome : String → Option CompanyDetails)
    (t : List QAction) {s : QueueState} (hinv : QInv fetchOutcome s) :
    QInv fetchOutcome (runTrace fetchOutcome t s) := by
  induction t generalizing s with
  | nil => exact hinv
  | cons a t ih => exact ih (QInv_applyAction hinv a)

theorem mem_queue_applyAction {fetchOutcome : String → Option CompanyDetails}
    {s : QueueState} {u : String} (h : u ∈ s.companyQueue) (a : QAction) :
    u ∈ (applyAction fetchOutcome s a).companyQueue := by
  cases a with
  | enqueue url =>
    show u ∈ (enqueueCompany s url).companyQueue
    unfold enqueueCompany
    split
    · exact h
    · have hm : u ∈ setAdd s.companyQueue url := by
        unfold setAdd
        split
        · exact h
        · exact List.mem_append.mpr (Or.inl h)
      split
      · exact hm
      · exact hm
  | workerStep =>
    show u ∈ (workerStep fetchOutcome s).companyQueue
    unfold workerStep
    split
    · exact h
    · split
      · split
        · exact h
        · exact h
      · exact h

theorem mem_queue_runTrace (fetchOutcome : String → Option CompanyDetails)
    (t : List QAction) {s : QueueState} {u : String} (h : u ∈ s.companyQueue) :
    u ∈ (runTrace fetchOutcome t s).companyQueue := by
  induction t generalizing s with
  | nil => exact h
  | cons a t ih => exact ih (mem_queue_applyAction h a)

theorem mem_queue_enqueueCompany {s : QueueState} {u : String} (hu : u ≠ "") :
    u ∈ (enqueueCompany s u).companyQueue := by
  unfold enqueueCompany
  rw [if_neg hu]
  have hm : u ∈ setAdd s.companyQueue u := by
    unfold setAdd
    split
    · assumption
    · exact List.mem_append.mpr (Or.inr (by simp))
  split
  · exact hm
  · exact hm

theorem mem_queue_of_enqueue_in_trace (fetchOutcome : String → Option CompanyDetails)
    {t : List QAction} {s : QueueState} {u : String} (hu : u ≠ "")
    (ht : QAction.enqueue u ∈ t) : u ∈ (runTrace fetchOutcome t s).companyQueue := by
  induction t generalizing s with
  | nil => simp at ht
  | cons a t ih =>
    rcases List.mem_cons.mp ht with h | h
    · rw [runTrace, ← h]
      exact mem_queue_runTrace fetchOutcome t (mem_queue_enqueueCompany hu)
    · exact ih h

theorem runTrace_append (fetchOutcome : String → Option CompanyDetails)
    (t t2 : List QAction) (s : QueueState) :
    runTrace fetchOutcome (t ++ t2) s = runTrace fetchOutcome t2 (runTrace fetchOutcome t s) := by
  induction t generalizing s with
  | nil => rfl
  | cons a t ih => rw [List.cons_append, runTrace, runTrace, ih]

theorem cached_applyAction {fetchOutcome : String → Option CompanyDetails}
    {s : QueueState} {u : String}
    (h : mapHas s.companyDetailsCache u = true) (a : QAction) :
    mapHas (applyAction fetchOutcome s a).companyDetailsCache u = true ∧
    (applyAction fetchOutcome s a).fetchLog.count u = s.fetchLog.count u := by
  cases a with
  | enqueue url =>
    show mapHas (enqueueCompany s url).companyDetailsCache u = true ∧
      (enqueueCompany s url).fetchLog.count u = s.fetchLog.count u
    unfold enqueueCompany
    split
    · exact ⟨h, rfl⟩
    · split
      · exact ⟨h, rfl⟩
      · exact ⟨h, rfl⟩
  | workerStep =>
    show mapHas (workerStep fetchOutcome s).companyDetailsCache u = true ∧
      (workerStep fetchOutcome s).fetchLog.count u = s.fetchLog.count u
    unfold workerStep
    split
    · exact ⟨h, rfl⟩
    · split
      · next hlt =>
        split
        · exact ⟨h, rfl⟩
        · next hcached =>
          have hne : u ≠ s.companyQueue[s.workerIdx] := by
            intro hh
            rw [hh] at h
            exact hcached h
          constructor
          · simp [mapHas_mapSet, h]
          · rw [List.count_append]
            have h0 : List.count u [s.companyQueue[s.workerIdx]] = 0 :=
              List.count_eq_zero.mpr (by simpa using hne)
            rw [h0, Nat.add_zero]
      · exact ⟨h, rfl⟩

theorem cached_runTrace (fetchOutcome : String → Option CompanyDetails)
    (t : List QAction) {s : QueueState} {u : String}
    (h : mapHas s.companyDetailsCache u = true) :
    mapHas (runTrace fetchOutcome t s).companyDetailsCache u = true ∧
    (runTrace fetchOutcome t s).fetchLog.count u = s.fetchLog.count u := by
  induction t generalizing s with
  | nil => exact ⟨h, rfl⟩
  | cons a t ih =>
    rw [runTrace]
    obtain ⟨h1, h2⟩ := cached_applyAction h a
    obtain ⟨h3, h4⟩ := ih h1
    exact ⟨h3, h4.trans h2⟩

/-- C2: for every interleaving of enqueues and worker iterations that
contains at least one enqueue of a non-empty orgRef u, once the worker
flag is observed down (the drained state the engine waits for), the
worker has performed exactly one fetch attempt for u — regardless of how
many times u was enqueued. -/
theorem enqueue_idempotent_one_fetch (fetchOutcome : String → Option CompanyDetails)
    (t : List QAction) (u : String) (hu : u ≠ "")
    (henq : QAction.enqueue u ∈ t)
    (hidle : (runTrace fetchOutcome t initQueueState).isProcessingQueue = false) :
    (runTrace fetchOutcome t initQueueState).fetchLog.count u = 1 := by
  have hinv := QInv_runTrace fetchOutcome t (QInv_init fetchOutcome)
  have hq := mem_queue_of_enqueue_in_trace fetchOutcome hu henq (s := initQueueState)
  have hc := hinv.idle_cached hidle u hq
  have hf := (hinv.cache_iff_fetched u).mp hc
  exact Nat.le_antisymm (hinv.fetch_once u) (List.count_pos_iff.mpr hf)

/-- Witness for C2: a trace with two enqueues of the same orgRef and a
drained worker shows exactly one fetch attempt. -/
theorem enqueue_idempotent_one_fetch_witness :
    ("u" : String) ≠ "" ∧
    QAction.enqueue "u" ∈
      [QAction.enqueue "u", QAction.enqueue "u", QAction.workerStep, QAction.workerStep] ∧
    (runTrace (fun _ => none)
      [QAction.enqueue "u", QAction.enqueue "u", QAction.workerStep, QAction.workerStep]
      initQueueState).isProcessingQueue = false ∧
    (runTrace (fun _ => none)
      [QAction.enqueue "u", QAction.enqueue "u", QAction.workerStep, QAction.workerStep]
      initQueueState).fetchLog.count "u" = 1 :=
  ⟨by decide, by decide, by rfl,
    enqueue_idempotent_one_fetch _ _ _ (by decide) (by decide) (by rfl)⟩

/-- C3 counterexample: after the drain wait observes the worker flag
down, the companyQueue — the pending set of the code, to which enqueue adds
orgRefs — is not empty: it still holds the enqueued orgRef, since the
worker never removes elements. -/
theorem drain_pending_set_not_cleared :
    (runTrace (fun _ => none)
      [QAction.enqueue "https://www.linkedin.com/company/acme",
        QAction.workerStep, QAction.workerStep]
      initQueueState).isProcessingQueue = false ∧
    (runTrace (fun _ => none)
      [QAction.enqueue "https://www.linkedin.com/company/acme",
        QAction.workerStep, QAction.workerStep]
      initQueueState).companyQueue = ["https://www.linkedin.com/company/acme"] ∧
    (runTrace (fun _ => none)
      [QAction.enqueue "https://www.linkedin.com/company/acme",
        QAction.workerStep, QAction.workerStep]
      initQueueState).companyQueue ≠ [] :=
  ⟨by rfl, by rfl, by decide⟩

/-- C3 (amended): when the drain wait returns (worker flag false), every
orgRef in the companyQueue — in particular every non-empty orgRef
enqueued during the search — has a cache entry (possibly all-empty);
the companyQueue itself is not cleared and keeps every enqueued orgRef. -/
theorem drain_all_enqueued_cached (fetchOutcome : String → Option CompanyDetails)
    (t : List QAction)
    (hidle : (runTrace fetchOutcome t initQueueState).isProcessingQueue = false) :
    (∀ u ∈ (runTrace fetchOutcome t initQueueState).companyQueue,
        mapHas (runTrace fetchOutcome t initQueueState).companyDetailsCache u = true) ∧
    (∀ u, u ≠ "" → QAction.enqueue u ∈ t →
        u ∈ (runTrace fetchOutcome t initQueueState).companyQueue) := by
  have hinv := QInv_runTrace fetchOutcome t (QInv_init fetchOutcome)
  exact ⟨hinv.idle_cached hidle,
    fun u hu ht => mem_queue_of_enqueue_in_trace fetchOutcome hu ht⟩

/-- Witness for the amended C3 at a concrete drained trace. -/
theorem drain_all_enqueued_cached_witness :
    (runTrace (fun _ => none)
      [QAction.enqueue "v", QAction.workerStep, QAction.workerStep]
      initQueueState).isProcessingQueue = false ∧
    ((∀ u ∈ (runTrace (fun _ => none)
        [QAction.enqueue "v", QAction.workerStep, QAction.workerStep]
        initQueueState).companyQueue,
        mapHas (runTrace (fun _ => none)
          [QAction.enqueue "v", QAction.workerStep, QAction.workerStep]
          initQueueState).companyDetailsCache u = true) ∧
      (∀ u, u ≠ "" →
        QAction.enqueue u ∈ [QAction.enqueue "v", QAction.workerStep, QAction.workerStep] →
        u ∈ (runTrace (fun _ => none)
          [QAction.enqueue "v", QAction.workerStep, QAction.workerStep]
          initQueueState).companyQueue)) :=
  ⟨by rfl, drain_all_enqueued_cached _ _ (by rfl)⟩

/-- C5: if the fetch for orgRef u fails (modelled as fetchOutcome u =
none, which scrapeCompanyDetailsInWorker catches), then once the worker
drains, the cache holds the all-empty defaultDetails entry for u, and no
continuation of the run — in particular one with further enqueues of u —
ever performs another fetch attempt for u.  Failures are values of the
environment here: the worker transition is total, so no enrichment
failure escapes to the search caller. -/
theorem failed_fetch_cached_empty_never_retried
    (fetchOutcome : String → Option CompanyDetails)
    (t : List QAction) (u : String) (hu : u ≠ "")
    (hfail : fetchOutcome u = none) (henq : QAction.enqueue u ∈ t)
    (hidle : (runTrace fetchOutcome t initQueueState).isProcessingQueue = false) :
    mapFind (runTrace fetchOutcome t initQueueState).companyDetailsCache u =
      some defaultDetails ∧
    ∀ t2, (runTrace fetchOutcome (t ++ t2) initQueueState).fetchLog.count u =
      (runTrace fetchOutcome t initQueueState).fetchLog.count u := by
  have hinv := QInv_runTrace fetchOutcome t (QInv_init fetchOutcome)
  have hq := mem_queue_of_enqueue_in_trace fetchOutcome hu henq (s := initQueueState)
  have hc := hinv.idle_cached hidle u hq
  have hf := (hinv.cache_iff_fetched u).mp hc
  constructor
  · rw [hinv.cache_values u hf]
    simp [scrapeCompanyDetailsInWorker, hfail]
  · intro t2
    rw [runTrace_append]
    exact (cached_runTrace fetchOutcome t2 hc).2

/-- Witness for C5: a failing fetch leaves an all-empty cache entry, and
a later enqueue of the same orgRef adds no fetch attempt. -/
theorem failed_fetch_cached_empty_never_retried_witness :
    ("w" : String) ≠ "" ∧
    ((fun _ => (none : Option CompanyDetails)) "w") = none ∧
    QAction.enqueue "w" ∈ [QAction.enqueue "w", QAction.workerStep, QAction.workerStep] ∧
    (runTrace (fun _ => none)
      [QAction.enqueue "w", QAction.workerStep, QAction.workerStep]
      initQueueState).isProcessingQueue = false ∧
    (mapFind (runTrace (fun _ => none)
        [QAction.enqueue "w", QAction.workerStep, QAction.workerStep]
        initQueueState).companyDetailsCache "w" = some defaultDetails ∧
      ∀ t2, (runTrace (fun _ => none)
          ([QAction.enqueue "w", QAction.workerStep, QAction.workerStep] ++ t2)
          initQueueState).fetchLog.count "w" =
        (runTrace (fun _ => none)
          [QAction.enqueue "w", QAction.workerStep, QAction.workerStep]
          initQueueState).fetchLog.count "w") :=
  ⟨by decide, by rfl, by decide, by rfl,
    failed_fetch_cached_empty_never_retried _ _ _ (by decide) (by rfl) (by decide) (by rfl)⟩

/-! ## Merge, pagination and login theorems -/

/-- C4: the merge step preserves the job list positionally; a record with
an empty companyLinkedinUrl is unchanged, and a record whose
companyLinkedinUrl has a cache entry receives exactly the five cached
enrichment fields. -/
theorem enrich_merge_fields (cache : List (String × CompanyDetails)) (jobs : List Job)
    (i : Nat) (j : Job) (hj : jobs[i]? = some j) :
    ∃ jm, (enrichJobs cache jobs)[i]? = some jm ∧
      (j.companyLinkedinUrl = "" → jm = j) ∧
      (∀ d, j.companyLinkedinUrl ≠ "" → mapFind cache j.companyLinkedinUrl = some d →
        jm.companyWebsite = d.companyWebsite ∧
        jm.companyDescription = d.companyDescription ∧
        jm.companyAddress = d.companyAddress ∧
        jm.companyEmployeesCount = d.companyEmployeesCount ∧
        jm.industries = d.industries) := by
  refine ⟨enrichJob cache j, ?_, ?_, ?_⟩
  · rw [enrichJobs, List.getElem?_map, hj]
    rfl
  · intro h
    rw [enrichJob, if_pos h]
  · intro d hne hfind
    rw [enrichJob, if_neg hne, hfind]
    exact ⟨rfl, rfl, rfl, rfl, rfl⟩

/-- Witness for C4 at a one-record list with a cached company. -/
theorem enrich_merge_fields_witness :
    ∃ jm, (enrichJobs
        [("https://www.linkedin.com/company/acme",
          { companyWebsite := "https://acme.example", companyDescription := "d",
            companyAddress := "a", companyEmployeesCount := "11 employees",
            industries := "Software" })]
        [{ id := "1", title := "t", link := "", applyUrl := "", location := "",
           postedAt := "", companyName := "Acme",
           companyLinkedinUrl := "https://www.linkedin.com/company/acme",
           companyWebsite := "", companyDescription := "", companyAddress := "",
           companyEmployeesCount := "", description := "", industries := "" }])[0]? =
      some jm ∧
      jm.companyWebsite = "https://acme.example" ∧
      jm.companyDescription = "d" ∧
      jm.companyAddress = "a" ∧
      jm.companyEmployeesCount = "11 employees" ∧
      jm.industries = "Software" := by
  obtain ⟨jm, h1, _, h3⟩ := enrich_merge_fields
    [("https://www.linkedin.com/company/acme",
      { companyWebsite := "https://acme.example", companyDescription := "d",
        companyAddress := "a", companyEmployeesCount := "11 employees",
        industries := "Software" })]
    [{ id := "1", title := "t", link := "", applyUrl := "", location := "",
       postedAt := "", companyName := "Acme",
       companyLinkedinUrl := "https://www.linkedin.com/company/acme",
       companyWebsite := "", companyDescription := "", companyAddress := "",
       companyEmployeesCount := "", description := "", industries := "" }]
    0 _ (by rfl)
  have h5 := h3
    { companyWebsite := "https://acme.example", companyDescription := "d",
      companyAddress := "a", companyEmployeesCount := "11 employees",
      industries := "Software" }
    (by decide) (by rfl)
  exact ⟨jm, h1, h5.1, h5.2.1, h5.2.2.1, h5.2.2.2.1, h5.2.2.2.2⟩

theorem scrapePagesLoop_le_fuel (cards : Nat → Nat) (nextEnabled : Nat → Bool)
    (failures : Nat → Nat) (maxJobs : Nat) :
    ∀ fuel page collected,
      scrapePagesLoop cards nextEnabled failures maxJobs fuel page collected ≤ fuel := by
  intro fuel
  induction fuel with
  | zero =>
    intro page collected
    simp [scrapePagesLoop]
  | succ n ih =>
    intro page collected
    rw [scrapePagesLoop]
    split
    · exact Nat.zero_le _
    · split
      · exact Nat.succ_le_succ (Nat.zero_le n)
      · split
        · exact Nat.succ_le_succ (Nat.zero_le n)
        · split
          · exact Nat.succ_le_succ (Nat.zero_le n)
          · have := ih (page + 1)
              (collected + (min (cards page) (maxJobs - collected) - failures page))
            omega

/-- C6: for every page environment and maximum job count, the pagination
loop visits at most the ceiling of maxJobs over the assumed page size 25,
which is the maxPages bound computed by the code. -/
theorem pagination_page_bound (cards : Nat → Nat) (nextEnabled : Nat → Bool)
    (failures : Nat → Nat) (maxJobs : Nat) :
    pagesVisited cards nextEnabled failures maxJobs ≤ (maxJobs + 24) / 25 :=
  scrapePagesLoop_le_fuel cards nextEnabled failures maxJobs (maxPagesFor maxJobs) 1 0

/-- C7 counterexample: a login that succeeds through the session-replay
shortcut (valid persisted session, authenticated address after replay)
returns true without any saveCookies call. -/
theorem login_replay_no_persist :
    (login { sessionLoaded := true,
             urlAfterSessionCheck := "https://www.linkedin.com/feed/",
             urlAfterSubmit := "", codeInputFound := false, gmailCode := none,
             submitButtonFound := false, urlAfterCodeSubmit := "",
             manualAuthUrlAtMs := none }).success = true ∧
    (login { sessionLoaded := true,
             urlAfterSessionCheck := "https://www.linkedin.com/feed/",
             urlAfterSubmit := "", codeInputFound := false, gmailCode := none,
             submitButtonFound := false, urlAfterCodeSubmit := "",
             manualAuthUrlAtMs := none }).saveCookiesCalls = 0 :=
  ⟨by rfl, by rfl⟩

theorem manualChallengeWait_success_persists (env : LoginEnv)
    (h : (manualChallengeWait env).success = true) :
    (manualChallengeWait env).saveCookiesCalls = 1 := by
  unfold manualChallengeWait at h ⊢
  generalize env.manualAuthUrlAtMs = o at h ⊢
  cases o with
  | some m =>
    by_cases hle : m ≤ manualWaitTimeoutMs
    · simp [hle]
    · simp [hle] at h
  | none => simp at h

/-- C7 (amended): every successful login run other than the
session-replay shortcut calls saveCookies exactly once before returning;
the replay path returns without persisting. -/
theorem login_success_persists_unless_replay (env : LoginEnv)
    (hsucc : (login env).success = true)
    (hnorep : (env.sessionLoaded && isLoggedInUrl env.urlAfterSessionCheck) = false) :
    (login env).saveCookiesCalls = 1 := by
  unfold login at hsucc ⊢
  rw [hnorep] at hsucc ⊢
  simp only [Bool.false_eq_true, if_false] at hsucc ⊢
  by_cases h1 : isLoggedInUrl env.urlAfterSubmit
  · simp [h1]
  · rw [if_neg (by simp [h1])] at hsucc ⊢
    by_cases h2 : isChallengeUrl env.urlAfterSubmit
    · rw [if_pos (by simp [h2])] at hsucc ⊢
      by_cases h3 : env.codeInputFound
      · rw [if_pos (by simp [h3])] at hsucc ⊢
        generalize env.gmailCode = go at hsucc ⊢
        cases go with
        | some c =>
          dsimp only at hsucc ⊢
          by_cases h4 : (env.submitButtonFound && isLoggedInUrl env.urlAfterCodeSubmit) = true
          · simp [h4]
          · rw [if_neg h4] at hsucc ⊢
            exact manualChallengeWait_success_persists env hsucc
        | none =>
          dsimp only at hsucc ⊢
          exact manualChallengeWait_success_persists env hsucc
      · rw [if_neg (by simp [h3])] at hsucc ⊢
        exact manualChallengeWait_success_persists env hsucc
    · rw [if_neg (by simp [h2])] at hsucc
      simp at hsucc

/-- Witness for the amended C7: a fresh form login that lands on the feed
persists the session exactly once. -/
theorem login_success_persists_unless_replay_witness :
    (login { sessionLoaded := false, urlAfterSessionCheck := "",
             urlAfterSubmit := "https://www.linkedin.com/feed/",
             codeInputFound := false, gmailCode := none,
             submitButtonFound := false, urlAfterCodeSubmit := "",
             manualAuthUrlAtMs := none }).success = true ∧
    (false && isLoggedInUrl "") = false ∧
    (login { sessionLoaded := false, urlAfterSessionCheck := "",
             urlAfterSubmit := "https://www.linkedin.com/feed/",
             codeInputFound := false, gmailCode := none,
             submitButtonFound := false, urlAfterCodeSubmit := "",
             manualAuthUrlAtMs := none }).saveCookiesCalls = 1 :=
  ⟨by rfl, by rfl, login_success_persists_unless_replay _ (by rfl) (by rfl)⟩

/-- C8: in the challenge state, when no verification-code input is found
or the Gmail code resolution yields nothing, and the address does not
reach an authenticated pattern within the 120000 ms manual wait, login
returns false and the searchJobs authentication step rejects with the
Login failed error. -/
theorem challenge_timeout_rejects (env : LoginEnv)
    (hnorep : (env.sessionLoaded && isLoggedInUrl env.urlAfterSessionCheck) = false)
    (hnodirect : isLoggedInUrl env.urlAfterSubmit = false)
    (hchal : isChallengeUrl env.urlAfterSubmit = true)
    (hnocode : env.codeInputFound = false ∨ env.gmailCode = none)
    (htimeout : ∀ m, env.manualAuthUrlAtMs = some m → manualWaitTimeoutMs < m) :
    (login env).success = false ∧
    searchJobsAuth env = Except.error "Login failed" ∧
    manualWaitTimeoutMs = 120000 := by
  have hmanual : manualChallengeWait env = { success := false, saveCookiesCalls := 0 } := by
    unfold manualChallengeWait
    generalize hgen : env.manualAuthUrlAtMs = o
    cases o with
    | some m =>
      have hlt := htimeout m hgen
      show (if m ≤ manualWaitTimeoutMs then ({ success := true, saveCookiesCalls := 1 } : LoginResult)
            else { success := false, saveCookiesCalls := 0 }) =
        { success := false, saveCookiesCalls := 0 }
      rw [if_neg (by omega)]
    | none => rfl
  have hl : (login env).success = false := by
    unfold login
    rw [hnorep]
    simp only [Bool.false_eq_true, if_false]
    rw [if_neg (by simp [hnodirect]), if_pos (by simp [hchal])]
    rcases hnocode with hc | hg
    · rw [if_neg (by simp [hc]), hmanual]
    · by_cases hcf : env.codeInputFound
      · rw [if_pos (by simp [hcf]), hg, hmanual]
      · rw [if_neg (by simp [hcf]), hmanual]
  refine ⟨hl, ?_, rfl⟩
  unfold searchJobsAuth
  rw [hl]
  simp

/-- Witness for C8: a challenge address, no code input, and a manual
completion arriving only after 150000 ms yield a failed login and a
rejected search. -/
theorem challenge_timeout_rejects_witness :
    (false && isLoggedInUrl "") = false ∧
    isLoggedInUrl "https://www.linkedin.com/checkpoint/challenge/abc" = false ∧
    isChallengeUrl "https://www.linkedin.com/checkpoint/challenge/abc" = true ∧
    (∀ m, (some 150000 : Option Nat) = some m → manualWaitTimeoutMs < m) ∧
    ((login { sessionLoaded := false, urlAfterSessionCheck := "",
              urlAfterSubmit := "https://www.linkedin.com/checkpoint/challenge/abc",
              codeInputFound := false, gmailCode := none,
              submitButtonFound := false, urlAfterCodeSubmit := "",
              manualAuthUrlAtMs := some 150000 }).success = false ∧
      searchJobsAuth { sessionLoaded := false, urlAfterSessionCheck := "",
                       urlAfterSubmit := "https://www.linkedin.com/checkpoint/challenge/abc",
                       codeInputFound := false, gmailCode := none,
                       submitButtonFound := false, urlAfterCodeSubmit := "",
                       manualAuthUrlAtMs := some 150000 } = Except.error "Login failed" ∧
      manualWaitTimeoutMs = 120000) :=
  ⟨by rfl, by rfl, by rfl,
    fun m hm => by
      simp only [Option.some.injEq] at hm
      subst hm
      decide,
    challenge_timeout_rejects _ (by rfl) (by rfl) (by rfl) (Or.inl (by rfl))
      (fun m hm => by
        simp only [Option.some.injEq] at hm
        subst hm
        decide)⟩

end Scraper
